import Mathlib

/-!
Verification of the Smart Email Triage System (email_triage.py).

The Python module is embedded shallowly: pure string processing is modelled
over `List Char` / `String`, the mutable `processed_emails` list is passed
explicitly, and the wall-clock timestamp is a parameter. Fallible dictionary
access is modelled with `Option`.
-/

namespace EmailTriage

/-- Python `str.lower()` restricted to its ASCII behaviour: every character is
lowercased independently. -/
def lowerStr (s : String) : String := ⟨s.data.map Char.toLower⟩

/-- Whether `needle` occurs at the head of `hay` (character-wise). -/
def leadMatch : List Char → List Char → Bool
  | [], _ => true
  | _ :: _, [] => false
  | n :: ns, h :: hs => n == h && leadMatch ns hs

/-- Whether `needle` occurs as a contiguous run somewhere in `hay`. -/
def subMatch (needle : List Char) : List Char → Bool
  | [] => needle.isEmpty
  | h :: hs => leadMatch needle (h :: hs) || subMatch needle hs

/-- Python `needle in hay` on strings: substring containment. -/
def strContains (hay needle : String) : Bool := subMatch needle.data hay.data

/-- The Product-Support keyword list of `classify_and_summarize_email`,
in source order. -/
def support_keywords : List String :=
  ["bug", "error", "not working", "broken", "crash", "issue", "problem",
   "feature", "how to"]

/-- The Billing keyword list of `classify_and_summarize_email`, in source
order. -/
def billing_keywords : List String :=
  ["bill", "payment", "charge", "invoice", "refund", "subscription",
   "pricing", "cost"]

/-- Embedding of `EmailTriageSystem.classify_and_summarize_email`: the
rule-based category choice followed by the summary template. The first
sentence is `email_content.split('.')[0][:100]`, i.e. the characters before
the first literal dot, cut to 100 characters. -/
def classify_and_summarize_email (email_content sender : String) :
    String × String :=
  let email_lower := lowerStr email_content
  let category :=
    if support_keywords.any (fun word => strContains email_lower word) then
      "Product Support"
    else if billing_keywords.any (fun word => strContains email_lower word) then
      "Billing"
    else
      "General Inquiry"
  let first_sentence : String :=
    ⟨(email_content.data.takeWhile (fun c => c != '.')).take 100⟩
  (category,
    "Customer " ++ sender ++ " needs help with " ++ lowerStr category ++ ": "
      ++ first_sentence ++ "...")

/-- The stop-word set of `extract_keywords`, in source order. -/
def stop_words : List String :=
  ["the", "a", "an", "and", "or", "but", "in", "on", "at", "to", "for", "of",
   "with", "by", "is", "are", "was", "were", "be", "been", "have", "has",
   "had", "will", "would", "could", "should", "may", "might", "can", "i",
   "you", "he", "she", "it", "we", "they", "my", "your", "his", "her", "our",
   "their"]

/-- Python regex `\w` (ASCII fragment): letters, digits, underscore. -/
def isWordChar (c : Char) : Bool := c.isAlpha || c.isDigit || c == '_'

/-- Embedding of `re.findall(r'\b[a-zA-Z]+\b', s)`: collect the maximal runs
of ASCII letters, keeping a run only when the character before it (if any)
and the character after it (if any) are not word characters — the regex
word-boundary requirement. `prevWord` records whether the character just
before the current position is a word character; `runOk` whether the current
run started at a word boundary; `run` holds the current run reversed. -/
def scanWords (prevWord runOk : Bool) (run : List Char) :
    List Char → List (List Char)
  | [] => if run.isEmpty then [] else if runOk then [run.reverse] else []
  | c :: cs =>
    if c.isAlpha then
      if run.isEmpty then scanWords true (!prevWord) [c] cs
      else scanWords true runOk (c :: run) cs
    else
      (if !run.isEmpty && runOk && !(isWordChar c) then [run.reverse] else [])
        ++ scanWords (isWordChar c) true [] cs

/-- Embedding of `EmailTriageSystem.extract_keywords`: regex word extraction
on the lowercased text, then the length / stop-word filter. -/
def extract_keywords (text : String) : List String :=
  let words : List String :=
    (scanWords false true [] (lowerStr text).data).map (fun l => (⟨l⟩ : String))
  words.filter (fun word => decide (3 < word.length) && !(stop_words.contains word))

/-- The record built by `process_email` (a Python dict with fixed keys). -/
structure ProcessedEmail where
  timestamp : String
  sender : String
  subject : String
  category : String
  summary : String
  keywords : List String
  channel : String
deriving DecidableEq

/-- The input dict of `process_email`; a missing key is `none`. -/
structure EmailData where
  sender? : Option String
  subject? : Option String
  content? : Option String
deriving DecidableEq

/-- Embedding of `EmailTriageSystem.process_email`. The Python method raises
`KeyError` when a field is absent (modelled by `none`) and otherwise appends
the new record to `processed_emails` (the explicit `log`) and returns it.
`now` stands for `datetime.now().isoformat()`. -/
def process_email (now : String) (email_data : EmailData)
    (log : List ProcessedEmail) : Option (ProcessedEmail × List ProcessedEmail) :=
  match email_data.sender?, email_data.subject?, email_data.content? with
  | some sender, some subject, some content =>
    let full_content := subject ++ " " ++ content
    let cs := classify_and_summarize_email full_content sender
    let keywords := extract_keywords full_content
    let processed : ProcessedEmail :=
      { timestamp := now
        sender := sender
        subject := subject
        category := cs.1
        summary := cs.2
        keywords := keywords
        channel :=
          "#" ++ (⟨(lowerStr cs.1).data.map
            (fun c => if c == ' ' then '-' else c)⟩ : String) }
    some (processed, log ++ [processed])
  | _, _, _ => none

/-- The `processed_emails` list after a call to `process_email`: a raised
`KeyError` leaves the list untouched. -/
def process_email_state (now : String) (email_data : EmailData)
    (log : List ProcessedEmail) : List ProcessedEmail :=
  match process_email now email_data log with
  | some (_, newLog) => newLog
  | none => log

/-- `self.categories`, in source order. -/
def categories : List String := ["Product Support", "Billing", "General Inquiry"]

/-- The concatenated keyword lists of the log's emails of one category, in
log order (`all_keywords` in `generate_keyword_analytics`). -/
def allKeywordsOf (log : List ProcessedEmail) (category : String) : List String :=
  ((log.filter (fun e => e.category == category)).map (fun e => e.keywords)).flatten

/-- The distinct elements of a list in order of first occurrence: the key
order of a Python `Counter` built from the list. -/
def firstOccurrences {α : Type} [BEq α] : List α → List α
  | [] => []
  | w :: ws => w :: (firstOccurrences ws).filter (fun x => !(x == w))

/-- Index of the first occurrence of `a` in a list (length when absent). -/
def firstIdx {α : Type} [BEq α] (a : α) : List α → Nat
  | [] => 0
  | b :: bs => if a == b then 0 else firstIdx a bs + 1

/-- The `(key, count)` pairs of `Counter(l)`, in first-occurrence order. -/
def counterPairs (l : List String) : List (String × Nat) :=
  (firstOccurrences l).map (fun w => (w, l.count w))

/-- Embedding of `Counter(l).most_common(n)`: a stable sort of the counter
items by descending count, then the first `n`. CPython documents
`heapq.nlargest` (used by `most_common`) as equivalent to
`sorted(iterable, key=key, reverse=True)[:n]`, which keeps ties in
insertion order. -/
def most_common (l : List String) (n : Nat) : List (String × Nat) :=
  (List.insertionSort (fun a b => b.2 ≤ a.2) (counterPairs l)).take n

/-- Embedding of `EmailTriageSystem.generate_keyword_analytics`: for each of
the three categories, the top-5 keywords of that category's emails. The
association list keeps the dict's key order. -/
def generate_keyword_analytics (log : List ProcessedEmail) :
    List (String × List String) :=
  categories.map (fun category =>
    (category, (most_common (allKeywordsOf log category) 5).map Prod.fst))

/-- The CSV column names of `save_to_csv`, in source order. -/
def fieldnames : List String :=
  ["timestamp", "sender", "subject", "category", "summary", "keywords",
   "channel"]

/-- The CSV data row written for one record: the seven fields in `fieldnames`
order, with the keyword list joined by `', '`. -/
def csvRowOf (e : ProcessedEmail) : List String :=
  [e.timestamp, e.sender, e.subject, e.category, e.summary,
   String.intercalate ", " e.keywords, e.channel]

/-- Embedding of `EmailTriageSystem.save_to_csv`. The file system is modelled
by the optional previous content of the target path (a list of rows, each a
list of cell strings); the result is the content after the call. The Python
method returns before touching the file when `processed_emails` is empty, and
otherwise opens the file with mode `'w'` (truncating it) and writes the
header row followed by one row per record. -/
def save_to_csv (log : List ProcessedEmail)
    (existing : Option (List (List String))) : Option (List (List String)) :=
  if log.isEmpty then existing
  else some (fieldnames :: log.map csvRowOf)

/-- The tokenization the specification describes (claim C2): every maximal
run of alphabetic characters is a token, every non-letter character acting
purely as a separator. Stated for comparison with `scanWords`. -/
def splitRunsAux (run : List Char) : List Char → List (List Char)
  | [] => if run.isEmpty then [] else [run.reverse]
  | c :: cs =>
    if c.isAlpha then splitRunsAux (c :: run) cs
    else (if run.isEmpty then [] else [run.reverse]) ++ splitRunsAux [] cs

/-- `extract_keywords` as the specification's words describe it (claim C2):
the separator-only tokenizer followed by the same length / stop-word
filter. -/
def extract_keywords_spec (text : String) : List String :=
  let words : List String :=
    (splitRunsAux [] (lowerStr text).data).map (fun l => (⟨l⟩ : String))
  words.filter (fun word => decide (3 < word.length) && !(stop_words.contains word))

/-- The "segment of the text before the first literal '.'" as the
specification's words describe it (claim C7): the whole text when no dot
occurs. -/
def firstSegmentSpec (text : String) : String :=
  if text.data.contains '.' then ⟨text.data.take (firstIdx '.' text.data)⟩
  else text

end EmailTriage

namespace EmailTriage

theorem takeWhile_ne_dot (l : List Char) :
    l.takeWhile (fun c => c != '.') =
      if l.contains '.' then l.take (firstIdx '.' l) else l := by
  induction l with
  | nil => simp
  | cons c cs ih =>
    by_cases hc : c = '.'
    · subst hc
      simp [List.takeWhile_cons, firstIdx]
    · have h1 : (c != '.') = true := by simp [hc]
      have h2 : ('.' == c) = false := by
        simp only [beq_eq_false_iff_ne, ne_eq]
        exact fun h => hc h.symm
      simp only [List.takeWhile_cons, h1, if_true, List.contains_cons, h2,
        Bool.false_or, firstIdx, ih]
      by_cases hmem : '.' ∈ cs
      · simp [hmem]
      · simp [hmem]

/-- C1: a text containing both a Product-Support keyword and a Billing
keyword (as substrings of its lowercasing) is always classified
"Product Support", never "Billing". -/
theorem C1_priority_product_support (text sender : String)
    (hps : ∃ w ∈ support_keywords, strContains (lowerStr text) w = true)
    (_hbill : ∃ w ∈ billing_keywords, strContains (lowerStr text) w = true) :
    (classify_and_summarize_email text sender).1 = "Product Support" := by
  obtain ⟨w, hw, hc⟩ := hps
  have hany : support_keywords.any (fun word => strContains (lowerStr text) word) = true :=
    List.any_eq_true.mpr ⟨w, hw, hc⟩
  simp [classify_and_summarize_email, hany]

theorem C1_witness :
    (∃ w ∈ support_keywords, strContains (lowerStr "Bug about my refund") w = true) ∧
    (∃ w ∈ billing_keywords, strContains (lowerStr "Bug about my refund") w = true) ∧
    (classify_and_summarize_email "Bug about my refund" "a@x.com").1 = "Product Support" :=
  ⟨by decide, by decide,
    C1_priority_product_support "Bug about my refund" "a@x.com" (by decide) (by decide)⟩

/-- C4: every token returned by `extract_keywords` has length strictly
greater than 3 and is outside the stop-word set. -/
theorem C4_keyword_filter (text : String) :
    ∀ w ∈ extract_keywords text, 3 < w.length ∧ w ∉ stop_words := by
  intro w hw
  simp only [extract_keywords, List.mem_filter, Bool.and_eq_true,
    decide_eq_true_eq, Bool.not_eq_true] at hw
  obtain ⟨-, hlen, hstop⟩ := hw
  refine ⟨hlen, fun hmem => ?_⟩
  simp only [Bool.not_eq_true'] at hstop
  simp [List.contains] at hstop
  exact hstop hmem

theorem C4_witness :
    "payment" ∈ extract_keywords "payment issue" ∧
    3 < "payment".length ∧ "payment" ∉ stop_words :=
  ⟨by decide, C4_keyword_filter "payment issue" "payment" (by decide)⟩

/-- C7: the summary returned by `classify_and_summarize_email` is exactly the
fixed template around the category (lowercased) and the first 100 characters
of the segment of the text before the first literal dot (the whole text when
no dot occurs). -/
theorem C7_summary_template (text sender : String) :
    (classify_and_summarize_email text sender).2 =
      "Customer " ++ sender ++ " needs help with "
        ++ lowerStr (classify_and_summarize_email text sender).1 ++ ": "
        ++ (⟨(firstSegmentSpec text).data.take 100⟩ : String) ++ "..." := by
  have hseg : (⟨(text.data.takeWhile (fun c => c != '.')).take 100⟩ : String) =
      (⟨(firstSegmentSpec text).data.take 100⟩ : String) := by
    rw [takeWhile_ne_dot]
    unfold firstSegmentSpec
    by_cases h : '.' ∈ text.data
    · simp [h]
    · simp [h]
  simp only [classify_and_summarize_email]
  rw [hseg]

/-- C8: a record missing any of the three fields makes `process_email` fail
(raise `KeyError`, modelled by `none`), and the log is unchanged by the
failed call. -/
theorem C8_missing_field_fails (now : String) (d : EmailData)
    (log : List ProcessedEmail)
    (h : d.sender? = none ∨ d.subject? = none ∨ d.content? = none) :
    process_email now d log = none ∧ process_email_state now d log = log := by
  obtain ⟨s, u, c⟩ := d
  cases s <;> cases u <;> cases c <;>
    simp_all [process_email, process_email_state]

theorem C8_witness :
    ((EmailData.mk none (some "Hi") (some "body")).sender? = none ∨
      (EmailData.mk none (some "Hi") (some "body")).subject? = none ∨
      (EmailData.mk none (some "Hi") (some "body")).content? = none) ∧
    (process_email "t" (EmailData.mk none (some "Hi") (some "body")) [] = none ∧
      process_email_state "t" (EmailData.mk none (some "Hi") (some "body")) [] = []) :=
  ⟨Or.inl rfl,
    C8_missing_field_fails "t" (EmailData.mk none (some "Hi") (some "body")) [] (Or.inl rfl)⟩

/-- C9: on a well-formed record, `process_email` extends the log by exactly
one new record appended at the end, leaving every prior entry in place. -/
theorem C9_append_only (now sender subject content : String)
    (log : List ProcessedEmail) :
    ∃ pe : ProcessedEmail,
      process_email now (EmailData.mk (some sender) (some subject) (some content)) log
        = some (pe, log ++ [pe]) :=
  ⟨_, rfl⟩

/-- C10: every field of the produced record except the timestamp is a pure
function of the input record: two calls on the same input, in any states and
at any times, agree on sender, subject, category, summary, keywords and
channel. -/
theorem C10_deterministic (d : EmailData) (now now' : String)
    (log log' : List ProcessedEmail) :
    (process_email now d log).map (fun r =>
      (r.1.sender, r.1.subject, r.1.category, r.1.summary, r.1.keywords, r.1.channel)) =
    (process_email now' d log').map (fun r =>
      (r.1.sender, r.1.subject, r.1.category, r.1.summary, r.1.keywords, r.1.channel)) := by
  obtain ⟨s, u, c⟩ := d
  cases s <;> cases u <;> cases c <;> rfl

/-- C3 fails on the empty log: `save_to_csv` returns before opening the file,
so an existing file is left untouched and no header row is written. -/
theorem C3_counterexample :
    save_to_csv [] (some [["stale"]]) = some [["stale"]] ∧
    save_to_csv [] (some [["stale"]]) ≠ some [fieldnames] := by
  constructor
  · rfl
  · decide

/-- C3 amended: on the empty log `save_to_csv` writes nothing and leaves any
existing file untouched; on a non-empty log it overwrites the target with
exactly one header row of the seven fixed columns followed by one row per
record in log order, the keywords cell being the keyword sequence joined by
", " (duplicates included). -/
theorem C3_csv_rows :
    (∀ existing, save_to_csv [] existing = existing) ∧
    (∀ (log : List ProcessedEmail) existing, log ≠ [] →
      ∃ rows, save_to_csv log existing = some rows ∧
        rows.length = log.length + 1 ∧
        rows.head? = some fieldnames ∧
        ∀ i (h : i < log.length),
          rows[i + 1]? = some [(log.get ⟨i, h⟩).timestamp, (log.get ⟨i, h⟩).sender,
            (log.get ⟨i, h⟩).subject, (log.get ⟨i, h⟩).category,
            (log.get ⟨i, h⟩).summary,
            String.intercalate ", " (log.get ⟨i, h⟩).keywords,
            (log.get ⟨i, h⟩).channel]) := by
  constructor
  · intro existing
    simp [save_to_csv]
  · intro log existing hne
    refine ⟨fieldnames :: log.map csvRowOf, ?_, ?_, ?_, ?_⟩
    · simp [save_to_csv, hne]
    · simp
    · rfl
    · intro i h
      simp [List.getElem?_map, List.getElem?_eq_getElem h, csvRowOf]

theorem C3_witness :
    ([ProcessedEmail.mk "t" "s" "u" "Billing" "m" ["k1", "k1", "k2"] "#billing"] ≠
      ([] : List ProcessedEmail)) ∧
    (∃ rows,
      save_to_csv [ProcessedEmail.mk "t" "s" "u" "Billing" "m" ["k1", "k1", "k2"] "#billing"]
          none = some rows ∧
        rows.length =
          [ProcessedEmail.mk "t" "s" "u" "Billing" "m" ["k1", "k1", "k2"] "#billing"].length + 1 ∧
        rows.head? = some fieldnames ∧
        ∀ i (h : i <
          [ProcessedEmail.mk "t" "s" "u" "Billing" "m" ["k1", "k1", "k2"] "#billing"].length),
          rows[i + 1]? = some
            [([ProcessedEmail.mk "t" "s" "u" "Billing" "m" ["k1", "k1", "k2"] "#billing"].get
                ⟨i, h⟩).timestamp,
             ([ProcessedEmail.mk "t" "s" "u" "Billing" "m" ["k1", "k1", "k2"] "#billing"].get
                ⟨i, h⟩).sender,
             ([ProcessedEmail.mk "t" "s" "u" "Billing" "m" ["k1", "k1", "k2"] "#billing"].get
                ⟨i, h⟩).subject,
             ([ProcessedEmail.mk "t" "s" "u" "Billing" "m" ["k1", "k1", "k2"] "#billing"].get
                ⟨i, h⟩).category,
             ([ProcessedEmail.mk "t" "s" "u" "Billing" "m" ["k1", "k1", "k2"] "#billing"].get
                ⟨i, h⟩).summary,
             String.intercalate ", "
               (([ProcessedEmail.mk "t" "s" "u" "Billing" "m" ["k1", "k1", "k2"] "#billing"].get
                  ⟨i, h⟩).keywords),
             ([ProcessedEmail.mk "t" "s" "u" "Billing" "m" ["k1", "k1", "k2"] "#billing"].get
                ⟨i, h⟩).channel]) :=
  ⟨by decide,
    C3_csv_rows.2
      [ProcessedEmail.mk "t" "s" "u" "Billing" "m" ["k1", "k1", "k2"] "#billing"] none
      (by decide)⟩

end EmailTriage

namespace EmailTriage

theorem scanWords_sound (l : List Char) :
    ∀ (pw ok : Bool) (run : List Char), (∀ c ∈ run, c.isAlpha = true) →
      ∀ w ∈ scanWords pw ok run l, w ≠ [] ∧ ∀ c ∈ w, c.isAlpha = true := by
  induction l with
  | nil =>
    intro pw ok run hrun w hw
    simp only [scanWords] at hw
    by_cases h1 : run.isEmpty
    · simp [h1] at hw
    · rw [if_neg h1] at hw
      by_cases h2 : ok = true
      · rw [if_pos h2, List.mem_singleton] at hw
        subst hw
        refine ⟨?_, fun c hc => hrun c (List.mem_reverse.mp hc)⟩
        simp only [ne_eq, List.reverse_eq_nil_iff]
        exact fun h => h1 (by simp [h])
      · simp [h2] at hw
  | cons c cs ih =>
    intro pw ok run hrun w hw
    simp only [scanWords] at hw
    by_cases hc : c.isAlpha = true
    · rw [if_pos hc] at hw
      by_cases h1 : run.isEmpty
      · rw [if_pos h1] at hw
        refine ih _ _ _ ?_ w hw
        intro x hx
        rw [List.mem_singleton] at hx
        subst hx
        exact hc
      · rw [if_neg h1] at hw
        refine ih _ _ _ ?_ w hw
        intro x hx
        rcases List.mem_cons.mp hx with rfl | hx
        · exact hc
        · exact hrun x hx
    · rw [if_neg hc, List.mem_append] at hw
      rcases hw with hw | hw
      · by_cases hguard : (!run.isEmpty && ok && !(isWordChar c)) = true
        · rw [if_pos hguard, List.mem_singleton] at hw
          subst hw
          cases run with
          | nil => simp at hguard
          | cons r rs =>
            refine ⟨by simp, fun x hx => hrun x (List.mem_reverse.mp hx)⟩
        · simp [hguard] at hw
      · exact ih _ _ [] (by simp) w hw

theorem extract_keywords_letters (text : String) :
    ∀ w ∈ extract_keywords text, w ≠ "" ∧ ∀ c ∈ w.data, c.isAlpha = true := by
  intro w hw
  simp only [extract_keywords, List.mem_filter] at hw
  obtain ⟨hw, -⟩ := hw
  obtain ⟨l, hl, rfl⟩ := List.mem_map.mp hw
  have h := scanWords_sound (lowerStr text).data false true [] (by simp) l hl
  refine ⟨fun hcon => h.1 ?_, h.2⟩
  exact congrArg String.data hcon

/-- C2 fails on the code: the regex only accepts a letter run whose two
neighbours are word boundaries, so a run adjacent to a digit is dropped
entirely instead of being produced as a token. On "abcd123efgh" the
specification's separator-only tokenizer keeps "abcd" and "efgh", while
`extract_keywords` returns nothing. -/
theorem C2_counterexample :
    extract_keywords "abcd123efgh" = [] ∧
    extract_keywords_spec "abcd123efgh" = ["abcd", "efgh"] ∧
    extract_keywords "abcd123efgh" ≠ extract_keywords_spec "abcd123efgh" := by
  refine ⟨by decide, by decide, by decide⟩

/-- C2 amended: tokens are maximal runs of alphabetic characters, but a run
is produced only when it is not adjacent to a digit or underscore (the
regex `\b` word boundaries); a letter run touching a digit is dropped
entirely, e.g. "user42name here" yields only "here". Still, every token
consists purely of letters — no token ever contains a digit. -/
theorem C2_tokens_letters_only :
    (∀ (text : String), ∀ w ∈ extract_keywords text, w ≠ "" ∧
      ∀ c ∈ w.data, c.isAlpha = true) ∧
    extract_keywords "user42name here" = ["here"] :=
  ⟨extract_keywords_letters, by decide⟩

theorem C2_witness :
    "hello" ∈ extract_keywords "hello there" ∧
    ("hello" ≠ "" ∧ ∀ c ∈ "hello".data, c.isAlpha = true) :=
  ⟨by decide, C2_tokens_letters_only.1 "hello there" "hello" (by decide)⟩

/-- C6: the analytics mapping always has exactly the three category keys, in
order, and a category with no matching emails maps to the empty keyword
list. -/
theorem C6_three_categories (log : List ProcessedEmail) :
    (generate_keyword_analytics log).map Prod.fst =
      ["Product Support", "Billing", "General Inquiry"] ∧
    ∀ p ∈ generate_keyword_analytics log,
      log.filter (fun e => e.category == p.1) = [] → p.2 = [] := by
  constructor
  · rfl
  · intro p hp hfilter
    obtain ⟨c, hc, rfl⟩ := List.mem_map.mp hp
    have hall : allKeywordsOf log c = [] := by
      simp only [allKeywordsOf]
      simp only at hfilter
      rw [hfilter]
      rfl
    show (most_common (allKeywordsOf log c) 5).map Prod.fst = []
    rw [hall]
    rfl

theorem C6_witness :
    (("Billing", ([] : List String)) ∈ generate_keyword_analytics
      [ProcessedEmail.mk "t" "s" "u" "Product Support" "m" ["keyword"] "#product-support"]) ∧
    ([ProcessedEmail.mk "t" "s" "u" "Product Support" "m" ["keyword"] "#product-support"].filter
      (fun e => e.category == ("Billing", ([] : List String)).1) = []) ∧
    ("Billing", ([] : List String)).2 = [] :=
  ⟨by decide, by decide,
    (C6_three_categories
      [ProcessedEmail.mk "t" "s" "u" "Product Support" "m" ["keyword"] "#product-support"]).2
      ("Billing", ([] : List String)) (by decide) (by decide)⟩

end EmailTriage

namespace EmailTriage

/-- The ranking order `most_common` realizes: strictly larger count first,
ties by first-occurrence position. -/
def lexRel {α : Type} (cnt idx : α → Nat) (a b : α) : Prop :=
  cnt b < cnt a ∨ (cnt a = cnt b ∧ idx a < idx b)

theorem orderedInsert_lex {α : Type} (cnt idx : α → Nat) (x : α) :
    ∀ l : List α, l.Pairwise (lexRel cnt idx) → (∀ y ∈ l, idx x < idx y) →
      (List.orderedInsert (fun a b => cnt b ≤ cnt a) x l).Pairwise (lexRel cnt idx) := by
  intro l
  induction l with
  | nil => intro _ _; simp [List.orderedInsert]
  | cons y ys ih =>
    intro hp hidx
    simp only [List.orderedInsert]
    by_cases hxy : cnt y ≤ cnt x
    · rw [if_pos hxy]
      refine List.pairwise_cons.mpr ⟨fun z hz => ?_, hp⟩
      have hzx : cnt z ≤ cnt x := by
        rcases List.mem_cons.mp hz with rfl | hzys
        · exact hxy
        · rcases (List.pairwise_cons.mp hp).1 z hzys with h | ⟨h, -⟩
          · exact le_trans (le_of_lt h) hxy
          · exact le_trans (le_of_eq h.symm) hxy
      rcases Nat.eq_or_lt_of_le hzx with heq | hlt
      · exact Or.inr ⟨heq.symm, hidx z hz⟩
      · exact Or.inl hlt
    · rw [if_neg hxy]
      have hyx : cnt x < cnt y := Nat.not_le.mp hxy
      refine List.pairwise_cons.mpr
        ⟨fun z hz => ?_, ih (List.pairwise_cons.mp hp).2
          (fun u hu => hidx u (List.mem_cons_of_mem _ hu))⟩
      rcases (List.mem_orderedInsert _).mp hz with rfl | hzys
      · exact Or.inl hyx
      · exact (List.pairwise_cons.mp hp).1 z hzys

theorem insertionSort_lex {α : Type} (cnt idx : α → Nat) :
    ∀ l : List α, l.Pairwise (fun a b => idx a < idx b) →
      (List.insertionSort (fun a b => cnt b ≤ cnt a) l).Pairwise (lexRel cnt idx) := by
  intro l
  induction l with
  | nil => intro _; simp [List.insertionSort]
  | cons x xs ih =>
    intro hp
    simp only [List.insertionSort]
    refine orderedInsert_lex cnt idx x _ (ih (List.pairwise_cons.mp hp).2) ?_
    intro y hy
    exact (List.pairwise_cons.mp hp).1 y
      ((List.perm_insertionSort _ xs).mem_iff.mp hy)

theorem firstOccurrences_mem {α : Type} [BEq α] [LawfulBEq α] {l : List α}
    {x : α} : x ∈ firstOccurrences l ↔ x ∈ l := by
  induction l with
  | nil => simp [firstOccurrences]
  | cons w ws ih =>
    simp only [firstOccurrences, List.mem_cons]
    constructor
    · rintro (rfl | hx)
      · exact Or.inl rfl
      · exact Or.inr (ih.mp (List.mem_of_mem_filter hx))
    · rintro (rfl | hx)
      · exact Or.inl rfl
      · by_cases hxw : x = w
        · exact Or.inl hxw
        · refine Or.inr (List.mem_filter.mpr ⟨ih.mpr hx, ?_⟩)
          simp [hxw]

theorem firstOccurrences_nodup {α : Type} [BEq α] [LawfulBEq α]
    (l : List α) : (firstOccurrences l).Nodup := by
  induction l with
  | nil => simp [firstOccurrences]
  | cons w ws ih =>
    simp only [firstOccurrences]
    refine List.nodup_cons.mpr ⟨fun hmem => ?_, List.Nodup.filter _ ih⟩
    have := (List.mem_filter.mp hmem).2
    simp at this

theorem firstOccurrences_pairwise {α : Type} [BEq α] [LawfulBEq α]
    (l : List α) :
    (firstOccurrences l).Pairwise (fun a b => firstIdx a l < firstIdx b l) := by
  induction l with
  | nil => simp [firstOccurrences]
  | cons w ws ih =>
    simp only [firstOccurrences]
    refine List.pairwise_cons.mpr ⟨fun b hb => ?_, ?_⟩
    · have hbne : (b == w) = false := by
        have := (List.mem_filter.mp hb).2
        simpa using this
      simp [firstIdx, hbne]
    · have hpw : ((firstOccurrences ws).filter (fun x => !(x == w))).Pairwise
          (fun a b => firstIdx a ws < firstIdx b ws) :=
        List.Pairwise.sublist (List.filter_sublist _) ih
      refine hpw.imp_of_mem ?_
      intro a b ha hb hr
      have hane : (a == w) = false := by
        have := (List.mem_filter.mp ha).2
        simpa using this
      have hbne : (b == w) = false := by
        have := (List.mem_filter.mp hb).2
        simpa using this
      simp only [firstIdx, hane, hbne, Bool.false_eq_true, if_false]
      omega

theorem most_common_props (l : List String) :
    ((most_common l 5).map Prod.fst).length ≤ 5 ∧
    ((most_common l 5).map Prod.fst).Nodup ∧
    (∀ w ∈ (most_common l 5).map Prod.fst, w ∈ l) ∧
    ((most_common l 5).map Prod.fst).Pairwise (fun a b =>
      l.count b < l.count a ∨
      (l.count a = l.count b ∧ firstIdx a l < firstIdx b l)) ∧
    (∀ w ∈ l, w ∉ (most_common l 5).map Prod.fst →
      ((most_common l 5).map Prod.fst).length = 5 ∧
      ∀ v ∈ (most_common l 5).map Prod.fst,
        l.count w < l.count v ∨
        (l.count w = l.count v ∧ firstIdx v l < firstIdx w l)) := by
  obtain ⟨sorted, hsorted⟩ :
      ∃ s, s = List.insertionSort (fun a b : String × Nat => b.2 ≤ a.2)
        (counterPairs l) := ⟨_, rfl⟩
  have hmc : most_common l 5 = sorted.take 5 := by
    rw [hsorted]; rfl
  have hperm : List.Perm sorted (counterPairs l) := by
    rw [hsorted]; exact List.perm_insertionSort _ _
  have hmempairs : ∀ p ∈ sorted, p.2 = l.count p.1 ∧ p.1 ∈ l := by
    intro p hp
    obtain ⟨w, hw, rfl⟩ := List.mem_map.mp (hperm.mem_iff.mp hp)
    exact ⟨rfl, firstOccurrences_mem.mp hw⟩
  have hpairsPW : (counterPairs l).Pairwise
      (fun p q : String × Nat => firstIdx p.1 l < firstIdx q.1 l) := by
    unfold counterPairs
    rw [List.pairwise_map]
    exact firstOccurrences_pairwise l
  have hPW : sorted.Pairwise
      (lexRel Prod.snd (fun p : String × Nat => firstIdx p.1 l)) := by
    rw [hsorted]; exact insertionSort_lex _ _ _ hpairsPW
  have hPWs : sorted.Pairwise (fun p q : String × Nat =>
      l.count q.1 < l.count p.1 ∨
      (l.count p.1 = l.count q.1 ∧ firstIdx p.1 l < firstIdx q.1 l)) := by
    refine hPW.imp_of_mem ?_
    intro a b ha hb hr
    rcases hr with h | ⟨h1, h2⟩
    · left
      rw [(hmempairs a ha).1, (hmempairs b hb).1] at h
      exact h
    · right
      refine ⟨?_, h2⟩
      rw [← (hmempairs a ha).1, ← (hmempairs b hb).1]
      exact h1
  have hfsteq : (counterPairs l).map Prod.fst = firstOccurrences l := by
    unfold counterPairs
    induction firstOccurrences l with
    | nil => rfl
    | cons a as ih => simp_all
  have hmapfst : List.Perm (sorted.map Prod.fst) (firstOccurrences l) := by
    refine (hperm.map Prod.fst).trans ?_
    rw [hfsteq]
  have hnodup : ((most_common l 5).map Prod.fst).Nodup := by
    rw [hmc, List.map_take]
    exact List.Nodup.sublist (List.take_sublist _ _)
      (hmapfst.nodup_iff.mpr (firstOccurrences_nodup l))
  have hlen : ((most_common l 5).map Prod.fst).length ≤ 5 := by
    rw [hmc]
    simp [List.length_take]
  have hmemks : ∀ w ∈ (most_common l 5).map Prod.fst, w ∈ l := by
    intro w hw
    rw [hmc] at hw
    obtain ⟨p, hp, rfl⟩ := List.mem_map.mp hw
    exact (hmempairs p (List.mem_of_mem_take hp)).2
  have hpairwise : ((most_common l 5).map Prod.fst).Pairwise (fun a b =>
      l.count b < l.count a ∨
      (l.count a = l.count b ∧ firstIdx a l < firstIdx b l)) := by
    rw [hmc, List.pairwise_map]
    exact (List.Pairwise.sublist (List.take_sublist _ _) hPWs)
  refine ⟨hlen, hnodup, hmemks, hpairwise, ?_⟩
  intro w hwl hwnot
  have hw1 : w ∈ firstOccurrences l := firstOccurrences_mem.mpr hwl
  have hps : (w, l.count w) ∈ sorted :=
    hperm.mem_iff.mpr (List.mem_map_of_mem _ hw1)
  rw [← List.take_append_drop 5 sorted] at hps
  rcases List.mem_append.mp hps with hin | hdrop
  · exact absurd (by rw [hmc]; exact List.mem_map_of_mem Prod.fst hin) hwnot
  · have hdlen : 0 < (sorted.drop 5).length :=
      List.length_pos.mpr (List.ne_nil_of_mem hdrop)
    rw [List.length_drop] at hdlen
    constructor
    · rw [hmc]
      simp only [List.length_map, List.length_take]
      omega
    · intro v hv
      rw [hmc] at hv
      obtain ⟨q, hq, rfl⟩ := List.mem_map.mp hv
      have hPWs' := hPWs
      rw [← List.take_append_drop 5 sorted] at hPWs'
      have hcross := (List.pairwise_append.mp hPWs').2.2 q hq _ hdrop
      rcases hcross with h | ⟨h1, h2⟩
      · exact Or.inl (by simpa using h)
      · exact Or.inr ⟨by simpa using h1.symm, by simpa using h2⟩

/-- C5: for every log and category, the analytics keyword list holds at most
5 distinct keywords of that category's concatenated keyword sequence, ordered
by strictly descending occurrence count with ties broken by first-occurrence
position (not alphabetically), and every keyword left out loses to every kept
one under that same ranking. -/
theorem C5_top5_ranking (log : List ProcessedEmail) (cat : String)
    (ks : List String) (hmem : (cat, ks) ∈ generate_keyword_analytics log) :
    ks.length ≤ 5 ∧ ks.Nodup ∧ (∀ w ∈ ks, w ∈ allKeywordsOf log cat) ∧
    ks.Pairwise (fun a b =>
      (allKeywordsOf log cat).count b < (allKeywordsOf log cat).count a ∨
      ((allKeywordsOf log cat).count a = (allKeywordsOf log cat).count b ∧
        firstIdx a (allKeywordsOf log cat) < firstIdx b (allKeywordsOf log cat))) ∧
    (∀ w ∈ allKeywordsOf log cat, w ∉ ks → ks.length = 5 ∧ ∀ v ∈ ks,
      (allKeywordsOf log cat).count w < (allKeywordsOf log cat).count v ∨
      ((allKeywordsOf log cat).count w = (allKeywordsOf log cat).count v ∧
        firstIdx v (allKeywordsOf log cat) < firstIdx w (allKeywordsOf log cat))) := by
  obtain ⟨c, hc, heq⟩ := List.mem_map.mp hmem
  have h1 : c = cat := congrArg Prod.fst heq
  have h2 : (most_common (allKeywordsOf log c) 5).map Prod.fst = ks :=
    congrArg Prod.snd heq
  subst h1
  subst h2
  exact most_common_props (allKeywordsOf log c)

theorem C5_witness :
    (("Billing", ["alpha", "beta"]) ∈ generate_keyword_analytics
      [ProcessedEmail.mk "t" "s" "u" "Billing" "m" ["alpha", "beta", "alpha"] "#billing"]) ∧
    (["alpha", "beta"] : List String).length ≤ 5 :=
  ⟨by decide,
    (C5_top5_ranking
      [ProcessedEmail.mk "t" "s" "u" "Billing" "m" ["alpha", "beta", "alpha"] "#billing"]
      "Billing" ["alpha", "beta"] (by decide)).1⟩

end EmailTriage
